import Mathlib

/-!
Verification of the e3d tutorial notebook's point-cloud preprocessing pipeline
(`process_point_cloud`, batching via `sparse_collate_fn`, raw label loading).

Spatial coordinates are modelled as rationals, labels as integers, and the
parallel numpy arrays as lists.  The fallible numpy operations (reduction over
an empty axis, boolean-mask length mismatch) are modelled by returning
`Option`.
-/

/-- A 3-component spatial point (x, y, z). -/
structure Pt3 where
  x : ℚ
  y : ℚ
  z : ℚ
deriving DecidableEq, Repr

/-- A raw input point: one row (x, y, z, intensity) of the N×4 point-cloud array. -/
structure Pt4 where
  x : ℚ
  y : ℚ
  z : ℚ
  w : ℚ
deriving DecidableEq, Repr

/-- `input_point_cloud[i, :3]`: the spatial part of a row. -/
def Pt4.xyz (p : Pt4) : Pt3 := ⟨p.x, p.y, p.z⟩

/-- Integer voxel coordinates (one row of the rounded coordinate array `pc_`;
the numpy array holds floats, but after `np.round` every entry is an integer
and stays one through the subtraction of the per-axis minimum). -/
structure Vox where
  x : ℤ
  y : ℤ
  z : ℤ
deriving DecidableEq, Repr

/-- `np.round` on an exact value: round half to even. -/
def npRound (q : ℚ) : ℤ :=
  if q - ⌊q⌋ = 1 / 2 then (if 2 ∣ ⌊q⌋ then ⌊q⌋ else ⌊q⌋ + 1) else round q

/-- `np.round(input_point_cloud[i, :3] / voxel_size)` for one row. -/
def voxelize (voxel_size : ℚ) (p : Pt4) : Vox :=
  ⟨npRound (p.x / voxel_size), npRound (p.y / voxel_size), npRound (p.z / voxel_size)⟩

/-- Componentwise minimum of two voxel coordinates. -/
def vmin (a b : Vox) : Vox := ⟨min a.x b.x, min a.y b.y, min a.z b.z⟩

/-- Componentwise subtraction of voxel coordinates. -/
def Vox.sub (a b : Vox) : Vox := ⟨a.x - b.x, a.y - b.y, a.z - b.z⟩

/-- `pc_.min(0)`: per-axis minimum over the rows.  numpy raises on an empty
array; `process_point_cloud` guards that case, so the `[]` value is never
used there. -/
def minVox : List Vox → Vox
  | [] => ⟨0, 0, 0⟩
  | v :: rest => rest.foldl vmin v

/-- Index of the first occurrence of `v` in `l` (length of `l` if absent). -/
def firstIdx {α : Type} [DecidableEq α] : List α → α → ℕ
  | [], _ => 0
  | a :: rest, v => if a = v then 0 else firstIdx rest v + 1

/-- First-occurrence deduplication, carrying the set of keys already seen. -/
def uniqAux {α : Type} [DecidableEq α] (seen : List α) : List α → List α
  | [] => []
  | a :: rest => if a ∈ seen then uniqAux seen rest else a :: uniqAux (a :: seen) rest

/-- The distinct elements of `l`, keeping the first occurrence of each, in order. -/
def uniqueKeys {α : Type} [DecidableEq α] (l : List α) : List α := uniqAux [] l

/-- Modelled from the spec: `torchsparse.utils.sparse_quantize` (an external
library function whose source is not part of this repository) deduplicates
points sharing a voxel coordinate, keeping one representative per voxel, and
records for every point the index of its voxel's representative.  It returns
the list of representative indices (`inds`, with `return_index=True`) and the
inverse map (`inverse_map`, with `return_invs=True`).  The `labels` component
returned by the library call is overwritten unused by the caller and is
omitted here. -/
def sparse_quantize (pc : List Vox) : List ℕ × List ℕ :=
  let keys := uniqueKeys pc
  (keys.map (fun v => firstIdx pc v), pc.map (fun v => firstIdx keys v))

/-- A torchsparse `SparseTensor`: features `F` paired with coordinates `C`. -/
structure SparseTensor (α β : Type) where
  F : List α
  C : List β
deriving DecidableEq, Repr

/-- The `feed_dict` returned by `process_point_cloud`. -/
structure FeedDict where
  pc : SparseTensor Pt3 Pt3
  lidar : SparseTensor Pt4 Vox
  targets : SparseTensor ℤ Vox
  targets_mapped : SparseTensor ℤ Pt3
  inverse_map : SparseTensor ℕ Pt3
deriving DecidableEq, Repr

/-- The statement `input_point_cloud[:, 3] = input_point_cloud[:, 3]`: every
row's column 3 is written with the value just read from it. -/
def writeCol3 (cloud : List Pt4) : List Pt4 :=
  cloud.map (fun p => ⟨p.x, p.y, p.z, p.w⟩)

/-- `pc_ = np.round(input_point_cloud[:, :3] / voxel_size)`. -/
def pcRounded (cloud : List Pt4) (voxel_size : ℚ) : List Vox :=
  cloud.map (voxelize voxel_size)

/-- `pc_ -= pc_.min(0, keepdims=1)`: the rounded coordinates shifted by the
per-axis minimum taken over the whole (unfiltered) cloud. -/
def pcShifted (cloud : List Pt4) (voxel_size : ℚ) : List Vox :=
  (pcRounded cloud voxel_size).map (fun v => v.sub (minVox (pcRounded cloud voxel_size)))

/-- `out_pc = input_point_cloud[labels_ != ignore_label, :3]`.  The masked
numpy indexing is modelled by filtering the rows zipped with the labels. -/
def outPc (cloud : List Pt4) (labels : List ℤ) (ignore_label : ℤ) : List Pt3 :=
  ((cloud.zip labels).filter (fun r => r.2 ≠ ignore_label)).map (fun r => r.1.xyz)

/-- `pc_ = pc_[labels_ != ignore_label]`. -/
def pcFiltered (cloud : List Pt4) (labels : List ℤ) (voxel_size : ℚ)
    (ignore_label : ℤ) : List Vox :=
  (((pcShifted cloud voxel_size).zip labels).filter
    (fun r => r.2 ≠ ignore_label)).map (fun r => r.1)

/-- `feat_ = feat_[labels_ != ignore_label]` (with `feat_ = input_point_cloud`). -/
def featFiltered (cloud : List Pt4) (labels : List ℤ) (ignore_label : ℤ) : List Pt4 :=
  ((cloud.zip labels).filter (fun r => r.2 ≠ ignore_label)).map (fun r => r.1)

/-- `labels_ = labels_[labels_ != ignore_label]`. -/
def labelsFiltered (labels : List ℤ) (ignore_label : ℤ) : List ℤ :=
  labels.filter (fun x => x ≠ ignore_label)

/-- The `feed_dict` built on the non-raising path of `process_point_cloud`:
quantize the filtered coordinates, index `pc_`, `feat_` and `labels_` by the
representative indices (`pc = pc_[inds]`, `feat = feat_[inds]`,
`labels_[inds]`), and bundle the five sparse tensors. -/
def feedOf (cloud : List Pt4) (labels : List ℤ) (voxel_size : ℚ)
    (ignore_label : ℤ) : FeedDict :=
  let pcF := pcFiltered cloud labels voxel_size ignore_label
  let q := sparse_quantize pcF
  let pc := q.1.map (fun i => pcF.getD i ⟨0, 0, 0⟩)
  let feat := q.1.map (fun i => (featFiltered cloud labels ignore_label).getD i ⟨0, 0, 0, 0⟩)
  { pc := ⟨outPc cloud labels ignore_label, outPc cloud labels ignore_label⟩
    lidar := ⟨feat, pc⟩
    targets := ⟨q.1.map (fun i => (labelsFiltered labels ignore_label).getD i 0), pc⟩
    targets_mapped := ⟨labelsFiltered labels ignore_label, outPc cloud labels ignore_label⟩
    inverse_map := ⟨q.2, outPc cloud labels ignore_label⟩ }

/-- `process_point_cloud(input_point_cloud, input_labels, voxel_size,
ignore_label)` from the notebook.  Returns `none` where the Python raises: on
an empty cloud (`pc_.min(0)` over an empty axis) or when the boolean label
mask does not match the array length. -/
def process_point_cloud (input_point_cloud : List Pt4) (input_labels : List ℤ)
    (voxel_size : ℚ) (ignore_label : ℤ) : Option FeedDict :=
  let cloud := writeCol3 input_point_cloud
  if cloud.length = 0 then none
  else if cloud.length ≠ input_labels.length then none
  else some (feedOf cloud input_labels voxel_size ignore_label)

/-- `process_point_cloud` together with the final values of the caller's two
input arrays (the only statement writing to either is the column-3
self-assignment, modelled by `writeCol3`; every other operation allocates a
fresh array). -/
def process_point_cloud_state (input_point_cloud : List Pt4) (input_labels : List ℤ)
    (voxel_size : ℚ) (ignore_label : ℤ) : (List Pt4 × List ℤ) × Option FeedDict :=
  ((writeCol3 input_point_cloud, input_labels),
    process_point_cloud input_point_cloud input_labels voxel_size ignore_label)

/-! ### List helper lemmas -/

theorem getD_of_lt {α : Type} (l : List α) (i : ℕ) (d : α) (h : i < l.length) :
    ∀ d2 : α, l.getD i d = l.getD i d2 := by
  induction l generalizing i with
  | nil => simp at h
  | cons a rest ih =>
    intro d2
    cases i with
    | zero => simp
    | succ j => simpa using ih j (by simpa using h) d2

theorem getD_mem {α : Type} (l : List α) (i : ℕ) (d : α) (h : i < l.length) :
    l.getD i d ∈ l := by
  induction l generalizing i with
  | nil => simp at h
  | cons a rest ih =>
    cases i with
    | zero => simp
    | succ j => simpa using Or.inr (ih j (by simpa using h))

theorem getD_map {α β : Type} (f : α → β) (l : List α) (i : ℕ) (d : β) (d0 : α)
    (h : i < l.length) : (l.map f).getD i d = f (l.getD i d0) := by
  induction l generalizing i with
  | nil => simp at h
  | cons a rest ih =>
    cases i with
    | zero => simp
    | succ j => simpa using ih j (by simpa using h)

theorem range_map_getD {α : Type} (l : List α) (d : α) :
    (List.range l.length).map (fun i => l.getD i d) = l := by
  induction l with
  | nil => simp
  | cons a rest ih =>
    have h1 : (a :: rest).length = rest.length + 1 := rfl
    rw [h1, List.range_succ_eq_map, List.map_cons, List.map_map]
    have h2 : ((fun i => (a :: rest).getD i d) ∘ Nat.succ) =
        (fun i => rest.getD i d) := by
      funext i
      simp
    rw [h2, ih]
    simp

theorem zip_filter_snd {α β : Type} (p : β → Bool) :
    ∀ (xs : List α) (ys : List β), xs.length = ys.length →
      ((xs.zip ys).filter (fun r => p r.2)).map (fun r => r.2) = ys.filter p := by
  intro xs
  induction xs with
  | nil =>
    intro ys h
    cases ys with
    | nil => rfl
    | cons b bs => simp at h
  | cons a as ih =>
    intro ys h
    cases ys with
    | nil => simp at h
    | cons b bs =>
      have hlen : as.length = bs.length := by simpa using h
      by_cases hp : p b
      · simp [List.zip_cons_cons, List.filter_cons, hp, ih bs hlen]
      · simp [List.zip_cons_cons, List.filter_cons, hp, ih bs hlen]

theorem length_zip_filter {α β : Type} (p : β → Bool) (xs : List α) (ys : List β)
    (h : xs.length = ys.length) :
    ((xs.zip ys).filter (fun r => p r.2)).length = (ys.filter p).length := by
  have := zip_filter_snd p xs ys h
  calc ((xs.zip ys).filter (fun r => p r.2)).length
      = (((xs.zip ys).filter (fun r => p r.2)).map (fun r => r.2)).length := by
        rw [List.length_map]
    _ = (ys.filter p).length := by rw [this]

/-! ### firstIdx lemmas -/

theorem firstIdx_lt_length {α : Type} [DecidableEq α] (l : List α) (v : α)
    (h : v ∈ l) : firstIdx l v < l.length := by
  induction l with
  | nil => simp at h
  | cons a rest ih =>
    by_cases hav : a = v
    · simp [firstIdx, hav]
    · have hv : v ∈ rest := by
        rcases List.mem_cons.mp h with h1 | h1
        · exact absurd h1.symm hav
        · exact h1
      simpa [firstIdx, hav] using ih hv

theorem getD_firstIdx {α : Type} [DecidableEq α] (l : List α) (v : α) (d : α)
    (h : v ∈ l) : l.getD (firstIdx l v) d = v := by
  induction l with
  | nil => simp at h
  | cons a rest ih =>
    by_cases hav : a = v
    · simp [firstIdx, hav]
    · have hv : v ∈ rest := by
        rcases List.mem_cons.mp h with h1 | h1
        · exact absurd h1.symm hav
        · exact h1
      simpa [firstIdx, hav] using ih hv

theorem map_firstIdx_of_nodup {α : Type} [DecidableEq α] (l : List α)
    (h : l.Nodup) : l.map (firstIdx l) = List.range l.length := by
  induction l with
  | nil => rfl
  | cons a rest ih =>
    have hna : a ∉ rest := (List.nodup_cons.mp h).1
    have hrest : rest.Nodup := (List.nodup_cons.mp h).2
    have hcongr : rest.map (firstIdx (a :: rest)) =
        rest.map (fun v => firstIdx rest v + 1) := by
      apply List.map_congr_left
      intro v hv
      have hav : a ≠ v := by
        intro hh
        exact hna (hh ▸ hv)
      simp [firstIdx, hav]
    have hlen : (a :: rest).length = rest.length + 1 := rfl
    rw [List.map_cons, hcongr, hlen, List.range_succ_eq_map]
    have : rest.map (fun v => firstIdx rest v + 1) =
        (rest.map (firstIdx rest)).map Nat.succ := by
      rw [List.map_map]
      rfl
    rw [this, ih hrest]
    simp [firstIdx]

/-! ### uniqueKeys lemmas -/

theorem mem_uniqAux {α : Type} [DecidableEq α] (v : α) :
    ∀ (l seen : List α), v ∈ uniqAux seen l ↔ v ∈ l ∧ v ∉ seen := by
  intro l
  induction l with
  | nil => intro seen; simp [uniqAux]
  | cons a rest ih =>
    intro seen
    by_cases ha : a ∈ seen
    · rw [uniqAux, if_pos ha, ih seen]
      constructor
      · rintro ⟨h1, h2⟩
        exact ⟨List.mem_cons_of_mem a h1, h2⟩
      · rintro ⟨h1, h2⟩
        rcases List.mem_cons.mp h1 with h3 | h3
        · exact absurd (h3 ▸ ha) h2
        · exact ⟨h3, h2⟩
    · rw [uniqAux, if_neg ha]
      constructor
      · intro h1
        rcases List.mem_cons.mp h1 with h3 | h3
        · exact ⟨h3 ▸ List.mem_cons_self a rest, h3 ▸ ha⟩
        · have := (ih (a :: seen)).mp h3
          refine ⟨List.mem_cons_of_mem a this.1, fun hc => this.2 ?_⟩
          exact List.mem_cons_of_mem a hc
      · rintro ⟨h1, h2⟩
        rcases List.mem_cons.mp h1 with h3 | h3
        · exact h3 ▸ List.mem_cons_self a _
        · by_cases hva : v = a
          · exact hva ▸ List.mem_cons_self a _
          · exact List.mem_cons_of_mem a ((ih (a :: seen)).mpr
              ⟨h3, by simp [hva, h2]⟩)

theorem mem_uniqueKeys {α : Type} [DecidableEq α] (v : α) (l : List α) :
    v ∈ uniqueKeys l ↔ v ∈ l := by
  rw [uniqueKeys, mem_uniqAux]
  simp

theorem uniqAux_eq_self {α : Type} [DecidableEq α] :
    ∀ (l seen : List α), l.Nodup → (∀ a ∈ l, a ∉ seen) → uniqAux seen l = l := by
  intro l
  induction l with
  | nil => intro seen _ _; rfl
  | cons a rest ih =>
    intro seen hnd hdisj
    have ha : a ∉ seen := hdisj a (List.mem_cons_self a rest)
    rw [uniqAux, if_neg ha]
    congr 1
    apply ih (a :: seen) (List.nodup_cons.mp hnd).2
    intro b hb
    have hba : b ≠ a := by
      intro hh
      exact (List.nodup_cons.mp hnd).1 (hh ▸ hb)
    simp only [List.mem_cons, not_or]
    exact ⟨hba, hdisj b (List.mem_cons_of_mem a hb)⟩

theorem uniqueKeys_eq_self {α : Type} [DecidableEq α] (l : List α)
    (h : l.Nodup) : uniqueKeys l = l :=
  uniqAux_eq_self l [] h (by simp)

/-! ### Basic facts about the pipeline stages -/

theorem writeCol3_eq (cloud : List Pt4) : writeCol3 cloud = cloud := by
  unfold writeCol3
  have : (fun p : Pt4 => (⟨p.x, p.y, p.z, p.w⟩ : Pt4)) = id := by
    funext p
    rfl
  rw [this, List.map_id]

theorem process_eq_some (c : List Pt4) (l : List ℤ) (vs : ℚ) (il : ℤ)
    (h1 : c ≠ []) (h2 : c.length = l.length) :
    process_point_cloud c l vs il = some (feedOf c l vs il) := by
  unfold process_point_cloud
  rw [writeCol3_eq]
  simp only [List.length_eq_zero]
  rw [if_neg h1, if_neg (by simp [h2])]

theorem process_some_inv (c : List Pt4) (l : List ℤ) (vs : ℚ) (il : ℤ)
    (fd : FeedDict) (h : process_point_cloud c l vs il = some fd) :
    c ≠ [] ∧ c.length = l.length ∧ fd = feedOf c l vs il := by
  unfold process_point_cloud at h
  rw [writeCol3_eq] at h
  by_cases h1 : c.length = 0
  · rw [if_pos h1] at h
    exact absurd h (by simp)
  · rw [if_neg h1] at h
    by_cases h2 : c.length = l.length
    · rw [if_neg (by simp [h2])] at h
      refine ⟨fun hc => h1 (by simp [hc]), h2, ?_⟩
      exact (Option.some_injective _ h).symm
    · rw [if_pos h2] at h
      exact absurd h (by simp)

theorem length_pcRounded (c : List Pt4) (vs : ℚ) :
    (pcRounded c vs).length = c.length := by
  unfold pcRounded
  rw [List.length_map]

theorem length_pcShifted (c : List Pt4) (vs : ℚ) :
    (pcShifted c vs).length = c.length := by
  unfold pcShifted
  rw [List.length_map, length_pcRounded]

theorem length_pcFiltered (c : List Pt4) (l : List ℤ) (vs : ℚ) (il : ℤ)
    (h : c.length = l.length) :
    (pcFiltered c l vs il).length = (labelsFiltered l il).length := by
  unfold pcFiltered labelsFiltered
  rw [List.length_map]
  exact length_zip_filter (fun x => decide (x ≠ il)) (pcShifted c vs) l
    (by rw [length_pcShifted, h])

theorem length_featFiltered (c : List Pt4) (l : List ℤ) (il : ℤ)
    (h : c.length = l.length) :
    (featFiltered c l il).length = (labelsFiltered l il).length := by
  unfold featFiltered labelsFiltered
  rw [List.length_map]
  exact length_zip_filter (fun x => decide (x ≠ il)) c l h

theorem length_outPc (c : List Pt4) (l : List ℤ) (il : ℤ)
    (h : c.length = l.length) :
    (outPc c l il).length = (labelsFiltered l il).length := by
  unfold outPc labelsFiltered
  rw [List.length_map]
  exact length_zip_filter (fun x => decide (x ≠ il)) c l h

theorem mem_pcFiltered (c : List Pt4) (l : List ℤ) (vs : ℚ) (il : ℤ) (v : Vox)
    (h : v ∈ pcFiltered c l vs il) : v ∈ pcShifted c vs := by
  unfold pcFiltered at h
  rcases List.mem_map.mp h with ⟨r, hr, hrv⟩
  have := List.mem_filter.mp hr
  exact hrv ▸ (List.of_mem_zip this.1).1

/-! ### sparse_quantize lemmas -/

theorem quantize_fst_length (pc : List Vox) :
    (sparse_quantize pc).1.length = (uniqueKeys pc).length := by
  unfold sparse_quantize
  rw [List.length_map]

theorem quantize_snd_length (pc : List Vox) :
    (sparse_quantize pc).2.length = pc.length := by
  unfold sparse_quantize
  rw [List.length_map]

theorem quantize_fst_mem_lt (pc : List Vox) (i : ℕ)
    (h : i ∈ (sparse_quantize pc).1) : i < pc.length := by
  unfold sparse_quantize at h
  rcases List.mem_map.mp h with ⟨v, hv, hvi⟩
  exact hvi ▸ firstIdx_lt_length pc v ((mem_uniqueKeys v pc).mp hv)

theorem quantize_snd_mem_lt (pc : List Vox) (j : ℕ)
    (h : j ∈ (sparse_quantize pc).2) : j < (uniqueKeys pc).length := by
  unfold sparse_quantize at h
  rcases List.mem_map.mp h with ⟨v, hv, hvj⟩
  exact hvj ▸ firstIdx_lt_length (uniqueKeys pc) v ((mem_uniqueKeys v pc).mpr hv)

theorem quantize_index_keys (pc : List Vox) (d : Vox) :
    (sparse_quantize pc).1.map (fun i => pc.getD i d) = uniqueKeys pc := by
  unfold sparse_quantize
  rw [List.map_map]
  calc (uniqueKeys pc).map ((fun i => pc.getD i d) ∘ fun v => firstIdx pc v)
      = (uniqueKeys pc).map (fun v => pc.getD (firstIdx pc v) d) := rfl
    _ = (uniqueKeys pc).map (fun v => v) := by
        apply List.map_congr_left
        intro v hv
        exact getD_firstIdx pc v d ((mem_uniqueKeys v pc).mp hv)
    _ = uniqueKeys pc := List.map_id _

/-! ### minVox lemmas -/

theorem foldl_vmin_le_acc (l : List Vox) :
    ∀ acc : Vox, (l.foldl vmin acc).x ≤ acc.x ∧ (l.foldl vmin acc).y ≤ acc.y ∧
      (l.foldl vmin acc).z ≤ acc.z := by
  induction l with
  | nil => intro acc; exact ⟨le_refl _, le_refl _, le_refl _⟩
  | cons b rest ih =>
    intro acc
    have h1 := ih (vmin acc b)
    refine ⟨h1.1.trans ?_, h1.2.1.trans ?_, h1.2.2.trans ?_⟩
    · exact min_le_left _ _
    · exact min_le_left _ _
    · exact min_le_left _ _

theorem foldl_vmin_le_mem (l : List Vox) :
    ∀ (acc v : Vox), v ∈ l → (l.foldl vmin acc).x ≤ v.x ∧
      (l.foldl vmin acc).y ≤ v.y ∧ (l.foldl vmin acc).z ≤ v.z := by
  induction l with
  | nil => intro acc v h; simp at h
  | cons b rest ih =>
    intro acc v h
    rcases List.mem_cons.mp h with h1 | h1
    · subst h1
      have h2 := foldl_vmin_le_acc rest (vmin acc v)
      refine ⟨h2.1.trans ?_, h2.2.1.trans ?_, h2.2.2.trans ?_⟩
      · exact min_le_right _ _
      · exact min_le_right _ _
      · exact min_le_right _ _
    · exact ih (vmin acc b) v h1

theorem minVox_le (l : List Vox) (v : Vox) (h : v ∈ l) :
    (minVox l).x ≤ v.x ∧ (minVox l).y ≤ v.y ∧ (minVox l).z ≤ v.z := by
  cases l with
  | nil => simp at h
  | cons a rest =>
    rcases List.mem_cons.mp h with h1 | h1
    · subst h1
      exact foldl_vmin_le_acc rest v
    · exact foldl_vmin_le_mem rest a v h1

/-! ### feedOf field equations -/

theorem feedOf_pc (c : List Pt4) (l : List ℤ) (vs : ℚ) (il : ℤ) :
    (feedOf c l vs il).pc = ⟨outPc c l il, outPc c l il⟩ := rfl

theorem feedOf_lidar_F (c : List Pt4) (l : List ℤ) (vs : ℚ) (il : ℤ) :
    (feedOf c l vs il).lidar.F = (sparse_quantize (pcFiltered c l vs il)).1.map
      (fun i => (featFiltered c l il).getD i ⟨0, 0, 0, 0⟩) := rfl

theorem feedOf_lidar_C (c : List Pt4) (l : List ℤ) (vs : ℚ) (il : ℤ) :
    (feedOf c l vs il).lidar.C = (sparse_quantize (pcFiltered c l vs il)).1.map
      (fun i => (pcFiltered c l vs il).getD i ⟨0, 0, 0⟩) := rfl

theorem feedOf_targets_F (c : List Pt4) (l : List ℤ) (vs : ℚ) (il : ℤ) :
    (feedOf c l vs il).targets.F = (sparse_quantize (pcFiltered c l vs il)).1.map
      (fun i => (labelsFiltered l il).getD i 0) := rfl

theorem feedOf_targets_C (c : List Pt4) (l : List ℤ) (vs : ℚ) (il : ℤ) :
    (feedOf c l vs il).targets.C = (feedOf c l vs il).lidar.C := rfl

theorem feedOf_targets_mapped (c : List Pt4) (l : List ℤ) (vs : ℚ) (il : ℤ) :
    (feedOf c l vs il).targets_mapped = ⟨labelsFiltered l il, outPc c l il⟩ := rfl

theorem feedOf_inverse_map (c : List Pt4) (l : List ℤ) (vs : ℚ) (il : ℤ) :
    (feedOf c l vs il).inverse_map =
      ⟨(sparse_quantize (pcFiltered c l vs il)).2, outPc c l il⟩ := rfl

/-! ### Nonnegativity of the shifted coordinates -/

theorem pcShifted_nonneg (c : List Pt4) (vs : ℚ) (v : Vox)
    (h : v ∈ pcShifted c vs) : 0 ≤ v.x ∧ 0 ≤ v.y ∧ 0 ≤ v.z := by
  unfold pcShifted at h
  rcases List.mem_map.mp h with ⟨u, hu, huv⟩
  have hm := minVox_le (pcRounded c vs) u hu
  subst huv
  unfold Vox.sub
  exact ⟨sub_nonneg.mpr hm.1, sub_nonneg.mpr hm.2.1, sub_nonneg.mpr hm.2.2⟩

theorem mem_lidar_C_pcFiltered (c : List Pt4) (l : List ℤ) (vs : ℚ) (il : ℤ)
    (v : Vox) (h : v ∈ (feedOf c l vs il).lidar.C) : v ∈ pcFiltered c l vs il := by
  rw [feedOf_lidar_C] at h
  rcases List.mem_map.mp h with ⟨i, hi, hiv⟩
  exact hiv ▸ getD_mem _ i _ (quantize_fst_mem_lt _ i hi)

/-! ### Concrete example shared by the witnesses -/

def exCloud : List Pt4 := [⟨0, 0, 0, 5⟩, ⟨1, 2, 0, 7⟩, ⟨1, 2, 0, 9⟩, ⟨9, 9, 9, 1⟩]

def exLabels : List ℤ := [0, 1, 1, 19]

def exOut : List Pt3 := [⟨0, 0, 0⟩, ⟨1, 2, 0⟩, ⟨1, 2, 0⟩]

def exVoxes : List Vox := [⟨0, 0, 0⟩, ⟨1, 2, 0⟩]

def exFeed : FeedDict :=
  { pc := ⟨exOut, exOut⟩
    lidar := ⟨[⟨0, 0, 0, 5⟩, ⟨1, 2, 0, 7⟩], exVoxes⟩
    targets := ⟨[0, 1], exVoxes⟩
    targets_mapped := ⟨[0, 1, 1], exOut⟩
    inverse_map := ⟨[0, 1, 1], exOut⟩ }

/-! ### Claim C9 -/

/-- C9: `process_point_cloud` does not modify its inputs: after the call the
caller's point-cloud array and label array hold their original values (the
apparent in-place write to column 3 assigns the column to itself, and the
remaining operations work on fresh arrays). -/
theorem C9_inputs_unmodified (c : List Pt4) (l : List ℤ) (vs : ℚ) (il : ℤ) :
    (process_point_cloud_state c l vs il).1 = (c, l) := by
  unfold process_point_cloud_state
  rw [writeCol3_eq]

/-! ### Claim C5 -/

/-- C5: for every input on which `process_point_cloud` returns, every voxel
coordinate of the returned 'lidar' and 'targets' sparse tensors is
non-negative after the origin shift by the per-cloud minimum. -/
theorem C5_coords_nonneg (c : List Pt4) (l : List ℤ) (vs : ℚ) (il : ℤ)
    (fd : FeedDict) (h : process_point_cloud c l vs il = some fd) :
    (∀ v ∈ fd.lidar.C, 0 ≤ v.x ∧ 0 ≤ v.y ∧ 0 ≤ v.z) ∧
    (∀ v ∈ fd.targets.C, 0 ≤ v.x ∧ 0 ≤ v.y ∧ 0 ≤ v.z) := by
  obtain ⟨-, -, rfl⟩ := process_some_inv c l vs il fd h
  have key : ∀ v ∈ (feedOf c l vs il).lidar.C, 0 ≤ v.x ∧ 0 ≤ v.y ∧ 0 ≤ v.z := by
    intro v hv
    exact pcShifted_nonneg c vs v
      (mem_pcFiltered c l vs il v (mem_lidar_C_pcFiltered c l vs il v hv))
  exact ⟨key, by rw [feedOf_targets_C]; exact key⟩

/-- Witness for C5 at a concrete input. -/
theorem C5_coords_nonneg_witness :
    (process_point_cloud exCloud exLabels 1 19 = some exFeed) ∧
    ((∀ v ∈ exFeed.lidar.C, 0 ≤ v.x ∧ 0 ≤ v.y ∧ 0 ≤ v.z) ∧
     (∀ v ∈ exFeed.targets.C, 0 ≤ v.x ∧ 0 ≤ v.y ∧ 0 ≤ v.z)) :=
  ⟨by with_unfolding_all rfl,
    C5_coords_nonneg exCloud exLabels 1 19 exFeed (by with_unfolding_all rfl)⟩

/-! ### Membership in the filtered stages -/

theorem mem_labelsFiltered_ne (l : List ℤ) (il : ℤ) (x : ℤ)
    (h : x ∈ labelsFiltered l il) : x ≠ il := by
  unfold labelsFiltered at h
  simpa using (List.mem_filter.mp h).2

theorem mem_featFiltered (c : List Pt4) (l : List ℤ) (il : ℤ) (f : Pt4)
    (h : f ∈ featFiltered c l il) : ∃ r ∈ c.zip l, r.2 ≠ il ∧ f = r.1 := by
  unfold featFiltered at h
  rcases List.mem_map.mp h with ⟨r, hr, hrf⟩
  have h2 := List.mem_filter.mp hr
  exact ⟨r, h2.1, by simpa using h2.2, hrf.symm⟩

theorem mem_outPc (c : List Pt4) (l : List ℤ) (il : ℤ) (p : Pt3)
    (h : p ∈ outPc c l il) : ∃ r ∈ c.zip l, r.2 ≠ il ∧ p = r.1.xyz := by
  unfold outPc at h
  rcases List.mem_map.mp h with ⟨r, hr, hrp⟩
  have h2 := List.mem_filter.mp hr
  exact ⟨r, h2.1, by simpa using h2.2, hrp.symm⟩

/-! ### Claim C2 -/

/-- C2: for every input on which `process_point_cloud` returns, no entry of
the 'lidar', 'targets', 'pc' or 'targets_mapped' fields of the feed_dict
derives from an ignored point: every label stored in 'targets' and
'targets_mapped' differs from the ignore value, and every feature row of
'lidar' and every point of 'pc' is (the spatial part of) an input point
paired with a non-ignored label. -/
theorem C2_ignored_points_absent (c : List Pt4) (l : List ℤ) (vs : ℚ) (il : ℤ)
    (fd : FeedDict) (h : process_point_cloud c l vs il = some fd) :
    (∀ x ∈ fd.targets.F, x ≠ il) ∧
    (∀ x ∈ fd.targets_mapped.F, x ≠ il) ∧
    (∀ f ∈ fd.lidar.F, ∃ r ∈ c.zip l, r.2 ≠ il ∧ f = r.1) ∧
    (∀ p ∈ fd.pc.F, ∃ r ∈ c.zip l, r.2 ≠ il ∧ p = r.1.xyz) := by
  obtain ⟨hne, hlen, rfl⟩ := process_some_inv c l vs il fd h
  refine ⟨?_, ?_, ?_, ?_⟩
  · intro x hx
    rw [feedOf_targets_F] at hx
    rcases List.mem_map.mp hx with ⟨i, hi, hix⟩
    have hil : i < (labelsFiltered l il).length := by
      rw [← length_pcFiltered c l vs il hlen]
      exact quantize_fst_mem_lt _ i hi
    exact hix ▸ mem_labelsFiltered_ne l il _ (getD_mem _ i 0 hil)
  · intro x hx
    rw [feedOf_targets_mapped] at hx
    exact mem_labelsFiltered_ne l il x hx
  · intro f hf
    rw [feedOf_lidar_F] at hf
    rcases List.mem_map.mp hf with ⟨i, hi, hif⟩
    have hil : i < (featFiltered c l il).length := by
      rw [length_featFiltered c l il hlen, ← length_pcFiltered c l vs il hlen]
      exact quantize_fst_mem_lt _ i hi
    exact hif ▸ mem_featFiltered c l il _ (getD_mem _ i _ hil)
  · intro p hp
    rw [feedOf_pc] at hp
    exact mem_outPc c l il p hp

/-- Witness for C2 at a concrete input. -/
theorem C2_ignored_points_absent_witness :
    (process_point_cloud exCloud exLabels 1 19 = some exFeed) ∧
    ((∀ x ∈ exFeed.targets.F, x ≠ 19) ∧
     (∀ x ∈ exFeed.targets_mapped.F, x ≠ 19) ∧
     (∀ f ∈ exFeed.lidar.F, ∃ r ∈ exCloud.zip exLabels, r.2 ≠ 19 ∧ f = r.1) ∧
     (∀ p ∈ exFeed.pc.F, ∃ r ∈ exCloud.zip exLabels, r.2 ≠ 19 ∧ p = r.1.xyz)) :=
  ⟨by with_unfolding_all rfl,
   C2_ignored_points_absent exCloud exLabels 1 19 exFeed (by with_unfolding_all rfl)⟩

/-! ### Claim C3 -/

/-- C3: for every input on which `process_point_cloud` returns, the
'inverse_map' field has exactly one entry per non-ignored input point, and
every entry is a valid index into the deduplicated/quantized output (the
number of kept voxel representatives, i.e. the length of the 'lidar'
features). -/
theorem C3_inverse_map_valid (c : List Pt4) (l : List ℤ) (vs : ℚ) (il : ℤ)
    (fd : FeedDict) (h : process_point_cloud c l vs il = some fd) :
    fd.inverse_map.F.length = (l.filter (fun x => x ≠ il)).length ∧
    (∀ j ∈ fd.inverse_map.F, j < fd.lidar.F.length) := by
  obtain ⟨hne, hlen, rfl⟩ := process_some_inv c l vs il fd h
  constructor
  · rw [feedOf_inverse_map]
    show (sparse_quantize (pcFiltered c l vs il)).2.length = _
    rw [quantize_snd_length, length_pcFiltered c l vs il hlen]
    rfl
  · intro j hj
    rw [feedOf_inverse_map] at hj
    have hlt := quantize_snd_mem_lt _ j hj
    rw [feedOf_lidar_F, List.length_map, quantize_fst_length]
    exact hlt

/-- Witness for C3 at a concrete input. -/
theorem C3_inverse_map_valid_witness :
    (process_point_cloud exCloud exLabels 1 19 = some exFeed) ∧
    (exFeed.inverse_map.F.length = (exLabels.filter (fun x => x ≠ 19)).length ∧
     (∀ j ∈ exFeed.inverse_map.F, j < exFeed.lidar.F.length)) :=
  ⟨by with_unfolding_all rfl,
   C3_inverse_map_valid exCloud exLabels 1 19 exFeed (by with_unfolding_all rfl)⟩

/-! ### Claim C1 -/

/-- The filter-then-shift pipeline that the claim describes: discard ignored
points first, then shift the rounded voxel coordinates by the per-axis
minimum of the already-filtered set. -/
def filterThenShiftVox (cloud : List Pt4) (labels : List ℤ) (voxel_size : ℚ)
    (ignore_label : ℤ) : List Vox :=
  let keptVox := (((cloud.map (voxelize voxel_size)).zip labels).filter
    (fun r => r.2 ≠ ignore_label)).map (fun r => r.1)
  keptVox.map (fun v => v.sub (minVox keptVox))

def cxCloud : List Pt4 := [⟨0, 0, 0, 0⟩, ⟨1, 1, 1, 0⟩]

def cxLabels : List ℤ := [19, 0]

/-- C1 counterexample: with one ignored point at the coordinate minimum, the
code's output voxel coordinate is (1,1,1) (the shift used the minimum over
all points, the ignored one included), while the filter-then-shift pipeline
of the claim yields (0,0,0).  The claim as stated is false. -/
theorem C1_counterexample :
    (process_point_cloud cxCloud cxLabels 1 19).map (fun fd => fd.lidar.C) =
      some [⟨1, 1, 1⟩] ∧
    uniqueKeys (filterThenShiftVox cxCloud cxLabels 1 19) = [⟨0, 0, 0⟩] ∧
    ([(⟨1, 1, 1⟩ : Vox)] ≠ [⟨0, 0, 0⟩]) :=
  ⟨by with_unfolding_all rfl, by with_unfolding_all rfl, by decide⟩

/-- C1 (amended): in `process_point_cloud` the per-axis minimum used to shift
the rounded voxel coordinates is computed over ALL input points, before the
ignore-label filtering; the output voxel coordinates ('lidar' and 'targets')
are the deduplicated coordinates of the shift-then-filter pipeline
(`pcFiltered`). -/
theorem C1_min_before_filter (c : List Pt4) (l : List ℤ) (vs : ℚ) (il : ℤ)
    (fd : FeedDict) (h : process_point_cloud c l vs il = some fd) :
    fd.lidar.C = uniqueKeys (pcFiltered c l vs il) ∧
    fd.targets.C = uniqueKeys (pcFiltered c l vs il) := by
  obtain ⟨hne, hlen, rfl⟩ := process_some_inv c l vs il fd h
  constructor
  · rw [feedOf_lidar_C]
    exact quantize_index_keys _ _
  · rw [feedOf_targets_C, feedOf_lidar_C]
    exact quantize_index_keys _ _

/-- Witness for the amended C1 at a concrete input. -/
theorem C1_min_before_filter_witness :
    (process_point_cloud exCloud exLabels 1 19 = some exFeed) ∧
    (exFeed.lidar.C = uniqueKeys (pcFiltered exCloud exLabels 1 19) ∧
     exFeed.targets.C = uniqueKeys (pcFiltered exCloud exLabels 1 19)) :=
  ⟨by with_unfolding_all rfl,
   C1_min_before_filter exCloud exLabels 1 19 exFeed (by with_unfolding_all rfl)⟩

/-! ### Claim C4 -/

/-- numpy fancy indexing `preds[idx]` of a one-dimensional array by an index
array (every index used by the pipeline is in range; out-of-range indices,
which would raise in numpy, read the default). -/
def npIndex {α : Type} (preds : List α) (idx : List ℕ) (d : α) : List α :=
  idx.map (fun j => preds.getD j d)

/-- C4: indexing a per-voxel prediction array by the inverse map
(`predictions[inverse_map]`) yields exactly one prediction per original
non-ignored input point, namely the prediction of the voxel representative
that point maps to: the result has one entry per non-ignored point, entry `i`
is the prediction at index `inverse_map[i]`, and the representative at that
index carries exactly point `i`'s shifted voxel coordinate. -/
theorem C4_inverse_map_scatter {α : Type} (c : List Pt4) (l : List ℤ) (vs : ℚ)
    (il : ℤ) (fd : FeedDict) (preds : List α) (d : α)
    (h : process_point_cloud c l vs il = some fd)
    (hpreds : preds.length = fd.lidar.F.length) :
    (npIndex preds fd.inverse_map.F d).length = (l.filter (fun x => x ≠ il)).length ∧
    (∀ i, i < fd.inverse_map.F.length →
      (npIndex preds fd.inverse_map.F d).getD i d =
        preds.getD (fd.inverse_map.F.getD i 0) d ∧
      fd.lidar.C.getD (fd.inverse_map.F.getD i 0) ⟨0, 0, 0⟩ =
        (pcFiltered c l vs il).getD i ⟨0, 0, 0⟩) := by
  obtain ⟨hne, hlen, rfl⟩ := process_some_inv c l vs il fd h
  have hinvs : (feedOf c l vs il).inverse_map.F =
      (sparse_quantize (pcFiltered c l vs il)).2 := by
    rw [feedOf_inverse_map]
  constructor
  · rw [hinvs]
    unfold npIndex
    rw [List.length_map, quantize_snd_length, length_pcFiltered c l vs il hlen]
    rfl
  · intro i hi
    rw [hinvs] at hi ⊢
    have hi2 : i < (pcFiltered c l vs il).length := by
      rw [← quantize_snd_length (pcFiltered c l vs il)]
      exact hi
    constructor
    · unfold npIndex
      exact getD_map _ _ i d 0 hi
    · -- the representative at index inverse_map[i] has point i's voxel
      have hC : (feedOf c l vs il).lidar.C = uniqueKeys (pcFiltered c l vs il) := by
        rw [feedOf_lidar_C]
        exact quantize_index_keys _ _
      rw [hC]
      have hgm : (sparse_quantize (pcFiltered c l vs il)).2.getD i 0 =
          firstIdx (uniqueKeys (pcFiltered c l vs il))
            ((pcFiltered c l vs il).getD i ⟨0, 0, 0⟩) := by
        unfold sparse_quantize
        exact getD_map _ _ i 0 ⟨0, 0, 0⟩ hi2
      rw [hgm]
      exact getD_firstIdx _ _ _ ((mem_uniqueKeys _ _).mpr
        (getD_mem _ i ⟨0, 0, 0⟩ hi2))

/-- Witness for C4 at a concrete input. -/
theorem C4_inverse_map_scatter_witness :
    (process_point_cloud exCloud exLabels 1 19 = some exFeed) ∧
    ([100, 200].length = exFeed.lidar.F.length) ∧
    ((npIndex [100, 200] exFeed.inverse_map.F (0 : ℤ)).length =
      (exLabels.filter (fun x => x ≠ 19)).length ∧
     (∀ i, i < exFeed.inverse_map.F.length →
       (npIndex [100, 200] exFeed.inverse_map.F (0 : ℤ)).getD i 0 =
         [100, 200].getD (exFeed.inverse_map.F.getD i 0) 0 ∧
       exFeed.lidar.C.getD (exFeed.inverse_map.F.getD i 0) ⟨0, 0, 0⟩ =
         (pcFiltered exCloud exLabels 1 19).getD i ⟨0, 0, 0⟩)) :=
  ⟨by with_unfolding_all rfl, by with_unfolding_all rfl,
   C4_inverse_map_scatter exCloud exLabels 1 19 exFeed [100, 200] 0
     (by with_unfolding_all rfl) (by with_unfolding_all rfl)⟩

/-! ### Claim C10 -/

/-- C10 counterexample: on the empty input every label (vacuously) equals the
ignore value, yet `process_point_cloud` does not return an all-empty
feed_dict: `pc_.min(0)` raises on the empty axis (modelled by `none`). -/
theorem C10_counterexample :
    process_point_cloud [] [] (1 / 20) 19 = none := by
  with_unfolding_all rfl

theorem zip_filter_all_ignored {γ : Type} (xs : List γ) (l : List ℤ) (il : ℤ)
    (h : ∀ x ∈ l, x = il) :
    (xs.zip l).filter (fun r => decide (r.2 ≠ il)) = [] := by
  rw [List.filter_eq_nil_iff]
  intro r hr
  simp [h r.2 (List.of_mem_zip hr).2]

/-- C10 (amended): if the input cloud is nonempty (and matches the label
array in length) and every label equals the ignore value, then
`process_point_cloud` returns a feed_dict in which every field is empty. -/
theorem C10_all_ignored_empty (c : List Pt4) (l : List ℤ) (vs : ℚ) (il : ℤ)
    (h1 : c ≠ []) (h2 : c.length = l.length) (h3 : ∀ x ∈ l, x = il) :
    process_point_cloud c l vs il =
      some ⟨⟨[], []⟩, ⟨[], []⟩, ⟨[], []⟩, ⟨[], []⟩, ⟨[], []⟩⟩ := by
  rw [process_eq_some c l vs il h1 h2]
  have hpcF : pcFiltered c l vs il = [] := by
    unfold pcFiltered
    rw [zip_filter_all_ignored _ l il h3]
    rfl
  have hfeat : featFiltered c l il = [] := by
    unfold featFiltered
    rw [zip_filter_all_ignored _ l il h3]
    rfl
  have hout : outPc c l il = [] := by
    unfold outPc
    rw [zip_filter_all_ignored _ l il h3]
    rfl
  have hlab : labelsFiltered l il = [] := by
    unfold labelsFiltered
    rw [List.filter_eq_nil_iff]
    intro x hx
    simp [h3 x hx]
  unfold feedOf
  rw [hpcF, hfeat, hout, hlab]
  rfl

/-- Witness for the amended C10 at a concrete input. -/
theorem C10_all_ignored_empty_witness :
    ((⟨0, 0, 0, 0⟩ :: ([] : List Pt4)) ≠ []) ∧
    (∀ x ∈ ([19] : List ℤ), x = 19) ∧
    process_point_cloud [⟨0, 0, 0, 0⟩] [19] (1 / 20) 19 =
      some ⟨⟨[], []⟩, ⟨[], []⟩, ⟨[], []⟩, ⟨[], []⟩, ⟨[], []⟩⟩ :=
  ⟨List.cons_ne_nil _ _, by decide,
   C10_all_ignored_empty [⟨0, 0, 0, 0⟩] [19] (1 / 20) 19
     (List.cons_ne_nil _ _) rfl (by decide)⟩

/-! ### Claim C7 -/

/-- C7: quantization is idempotent.  For a point set that is already
deduplicated (no two points share a rounded voxel coordinate) and
voxel-aligned (every coordinate an integer multiple of the voxel size,
rounded coordinates already at a zero per-axis minimum), with no ignored
labels, `process_point_cloud` returns the same point set: the 'lidar'
features are the input points, the representatives are the rounded
coordinates themselves, the targets are the input labels, and the inverse
map is the identity. -/
theorem C7_quantize_idempotent (c : List Pt4) (l : List ℤ) (vs : ℚ) (il : ℤ)
    (_h0 : vs ≠ 0) (h1 : c ≠ []) (h2 : c.length = l.length)
    (h3 : ∀ x ∈ l, x ≠ il) (h4 : (pcRounded c vs).Nodup)
    (h5 : minVox (pcRounded c vs) = ⟨0, 0, 0⟩)
    (_h6 : ∀ p ∈ c, ∃ m : Vox, p.x = vs * m.x ∧ p.y = vs * m.y ∧ p.z = vs * m.z) :
    process_point_cloud c l vs il = some
      ⟨⟨c.map Pt4.xyz, c.map Pt4.xyz⟩, ⟨c, pcRounded c vs⟩, ⟨l, pcRounded c vs⟩,
        ⟨l, c.map Pt4.xyz⟩, ⟨List.range c.length, c.map Pt4.xyz⟩⟩ := by
  rw [process_eq_some c l vs il h1 h2]
  have hkeep : ∀ {γ : Type} (xs : List γ), xs.length = l.length →
      ((xs.zip l).filter (fun r => decide (r.2 ≠ il))).map (fun r => r.1) = xs := by
    intro γ xs hx
    have hfil : (xs.zip l).filter (fun r => decide (r.2 ≠ il)) = xs.zip l :=
      List.filter_eq_self.mpr (fun r hr => by simpa using h3 r.2 (List.of_mem_zip hr).2)
    rw [hfil]
    exact List.map_fst_zip xs l (le_of_eq hx)
  have hshift : pcShifted c vs = pcRounded c vs := by
    unfold pcShifted
    rw [h5]
    have hz : ∀ v ∈ pcRounded c vs, v.sub ⟨0, 0, 0⟩ = v := by
      intro v hv
      unfold Vox.sub
      simp
    rw [List.map_congr_left hz, List.map_id']
  have hpcF : pcFiltered c l vs il = pcRounded c vs := by
    unfold pcFiltered
    rw [hshift]
    exact hkeep (pcRounded c vs) (by rw [length_pcRounded, h2])
  have hfeat : featFiltered c l il = c := by
    unfold featFiltered
    exact hkeep c h2
  have hlab : labelsFiltered l il = l := by
    unfold labelsFiltered
    exact List.filter_eq_self.mpr (fun x hx => by simpa using h3 x hx)
  have hout : outPc c l il = c.map Pt4.xyz := by
    unfold outPc
    have : ((c.zip l).filter (fun r => decide (r.2 ≠ il))).map (fun r => r.1.xyz)
        = (((c.zip l).filter (fun r => decide (r.2 ≠ il))).map (fun r => r.1)).map Pt4.xyz := by
      rw [List.map_map]
      rfl
    rw [this, hkeep c h2]
  have hkeys : uniqueKeys (pcRounded c vs) = pcRounded c vs := uniqueKeys_eq_self _ h4
  have hinds : (sparse_quantize (pcRounded c vs)).1 = List.range (pcRounded c vs).length := by
    simp only [sparse_quantize]
    rw [hkeys]
    exact map_firstIdx_of_nodup _ h4
  have hinvs : (sparse_quantize (pcRounded c vs)).2 = List.range (pcRounded c vs).length := by
    simp only [sparse_quantize]
    rw [hkeys]
    exact map_firstIdx_of_nodup _ h4
  have e1 : (List.range (pcRounded c vs).length).map
      (fun i => (pcRounded c vs).getD i (⟨0, 0, 0⟩ : Vox)) = pcRounded c vs :=
    range_map_getD _ _
  have e2 : (List.range (pcRounded c vs).length).map
      (fun i => c.getD i (⟨0, 0, 0, 0⟩ : Pt4)) = c := by
    rw [length_pcRounded]
    exact range_map_getD _ _
  have e3 : (List.range (pcRounded c vs).length).map (fun i => l.getD i (0 : ℤ)) = l := by
    rw [length_pcRounded, h2]
    exact range_map_getD _ _
  have e4 : List.range (pcRounded c vs).length = List.range c.length := by
    rw [length_pcRounded]
  simp only [feedOf]
  rw [hpcF, hfeat, hlab, hout, hinds, hinvs, e1, e2, e3, e4]

def c7c : List Pt4 := [⟨0, 0, 0, 1⟩, ⟨2, 0, 0, 2⟩]

def c7l : List ℤ := [0, 1]

/-- Witness for C7 at a concrete aligned, deduplicated input. -/
theorem C7_quantize_idempotent_witness :
    (pcRounded c7c 2).Nodup ∧ (minVox (pcRounded c7c 2) = ⟨0, 0, 0⟩) ∧
    (∀ x ∈ c7l, x ≠ 19) ∧
    process_point_cloud c7c c7l 2 19 = some
      ⟨⟨c7c.map Pt4.xyz, c7c.map Pt4.xyz⟩, ⟨c7c, pcRounded c7c 2⟩,
        ⟨c7l, pcRounded c7c 2⟩, ⟨c7l, c7c.map Pt4.xyz⟩,
        ⟨List.range c7c.length, c7c.map Pt4.xyz⟩⟩ := by
  have e : pcRounded c7c 2 = [⟨0, 0, 0⟩, ⟨1, 0, 0⟩] := by with_unfolding_all rfl
  refine ⟨by rw [e]; decide, by rw [e]; decide, by decide, ?_⟩
  refine C7_quantize_idempotent c7c c7l 2 19 (by norm_num) (List.cons_ne_nil _ _) rfl
    (by decide) (by rw [e]; decide) (by rw [e]; decide) ?_
  intro p hp
  rcases List.mem_cons.mp hp with hh | hh
  · refine ⟨⟨0, 0, 0⟩, ?_⟩
    rw [hh]
    norm_num [c7c]
  · rcases List.mem_cons.mp hh with hg | hg
    · refine ⟨⟨1, 0, 0⟩, ?_⟩
      rw [hg]
      norm_num [c7c]
    · simp at hg

/-! ### Claim C8: label loading -/

/-- The 32-bit two-complement bit pattern of a numpy int32 value. -/
def toBits32 (v : ℤ) : ℕ := (v % 4294967296).toNat

/-- The int32 value denoted by a 32-bit pattern. -/
def ofBits32 (b : ℕ) : ℤ :=
  if b % 4294967296 < 2147483648 then ((b % 4294967296 : ℕ) : ℤ)
  else ((b % 4294967296 : ℕ) : ℤ) - 4294967296

/-- numpy int32 bitwise AND: AND of the two-complement bit patterns. -/
def int32_and (a b : ℤ) : ℤ := ofBits32 (toBits32 a &&& toBits32 b)

/-- `np.fromfile(..., dtype=np.int32) & 0xFFFF` for one element. -/
def masked_label (v : ℤ) : ℤ := int32_and v 65535

/-- `label = label_map[label]` applied after the mask: the label value the
pipeline uses for one raw element (`create_label_map` itself lives outside
this file's source, so the map is an arbitrary table here). -/
def pipeline_label (label_map : List ℤ) (v : ℤ) : ℤ :=
  label_map.getD (masked_label v).toNat 0

/-- C8: when loading the label file only the lower 16 bits of each 32-bit
integer are significant: for every raw int32 value `v` the masked value is
exactly the low 16 bits of `v`'s two-complement representation (`v % 2^16`,
a value in `[0, 65536)`), and the pipeline label is the label map read at
that masked value. -/
theorem C8_label_mask (v : ℤ) (m : List ℤ)
    (_hv : -2147483648 ≤ v ∧ v < 2147483648) :
    masked_label v = v % 65536 ∧
    0 ≤ masked_label v ∧ masked_label v < 65536 ∧
    pipeline_label m v = m.getD (v % 65536).toNat 0 := by
  have hmask : masked_label v = v % 65536 := by
    unfold masked_label int32_and
    have ht : toBits32 65535 = 65535 := by decide
    rw [ht]
    have hand : toBits32 v &&& 65535 = toBits32 v % 65536 := by
      have h16 := Nat.and_pow_two_sub_one_eq_mod (toBits32 v) 16
      norm_num at h16
      exact h16
    rw [hand]
    have hlt : toBits32 v % 65536 < 65536 := Nat.mod_lt _ (by norm_num)
    unfold ofBits32
    rw [Nat.mod_eq_of_lt (lt_trans hlt (by norm_num))]
    rw [if_pos (lt_trans hlt (by norm_num))]
    unfold toBits32
    have hnn : (0 : ℤ) ≤ v % 4294967296 := Int.emod_nonneg v (by norm_num)
    push_cast
    rw [Int.toNat_of_nonneg hnn]
    exact Int.emod_emod_of_dvd v (by norm_num)
  refine ⟨hmask, ?_, ?_, ?_⟩
  · rw [hmask]
    exact Int.emod_nonneg v (by norm_num)
  · rw [hmask]
    exact Int.emod_lt_of_pos v (by norm_num)
  · unfold pipeline_label
    rw [hmask]

/-- Witness for C8 at the raw value -2 (bit pattern 0xFFFFFFFE, low 16 bits
0xFFFE = 65534). -/
theorem C8_label_mask_witness :
    ((-2147483648 : ℤ) ≤ -2 ∧ (-2 : ℤ) < 2147483648) ∧
    (masked_label (-2) = (-2 : ℤ) % 65536 ∧
     0 ≤ masked_label (-2) ∧ masked_label (-2) < 65536 ∧
     pipeline_label [7] (-2) = [(7 : ℤ)].getD ((-2 : ℤ) % 65536).toNat 0) :=
  ⟨by decide, C8_label_mask (-2) [7] (by decide)⟩

/-! ### Claim C6: batch collation -/

/-- Append the batch index to each coordinate row: the sample at position `i`
contributes `(coord, i)` for each of its coordinates. -/
def coordsWithBatch {α β : Type} : List (SparseTensor α β) → ℕ → List (β × ℕ)
  | [], _ => []
  | st :: rest, i => st.C.map (fun cc => (cc, i)) ++ coordsWithBatch rest (i + 1)

/-- Modelled from the spec: one field of `torchsparse.utils.sparse_collate_fn`
(an external library function whose source is not part of this repository):
concatenate the feature lists of the samples and concatenate the coordinate
lists with a batch-index column appended. -/
def collateST {α β : Type} (l : List (SparseTensor α β)) : SparseTensor α (β × ℕ) :=
  ⟨(l.map (fun st => st.F)).flatten, coordsWithBatch l 0⟩

/-- The collated batch returned by `sparse_collate_fn` on a list of
`feed_dict`s: each named field collated. -/
structure BatchDict where
  pc : SparseTensor Pt3 (Pt3 × ℕ)
  lidar : SparseTensor Pt4 (Vox × ℕ)
  targets : SparseTensor ℤ (Vox × ℕ)
  targets_mapped : SparseTensor ℤ (Pt3 × ℕ)
  inverse_map : SparseTensor ℕ (Pt3 × ℕ)

/-- Modelled from the spec: `sparse_collate_fn` collates every named field of
the per-sample `feed_dict`s. -/
def sparse_collate_fn (l : List FeedDict) : BatchDict :=
  { pc := collateST (l.map (fun fd => fd.pc))
    lidar := collateST (l.map (fun fd => fd.lidar))
    targets := collateST (l.map (fun fd => fd.targets))
    targets_mapped := collateST (l.map (fun fd => fd.targets_mapped))
    inverse_map := collateST (l.map (fun fd => fd.inverse_map)) }

theorem coordsWithBatch_snd_toFinset {α β : Type} [DecidableEq β] :
    ∀ (l : List (SparseTensor α β)) (i : ℕ), (∀ st ∈ l, st.C ≠ []) →
      ((coordsWithBatch l i).map (fun r => r.2)).toFinset =
        Finset.Ico i (i + l.length) := by
  intro l
  induction l with
  | nil => intro i _; simp [coordsWithBatch]
  | cons st rest ih =>
    intro i h
    have hst : st.C ≠ [] := h st (List.mem_cons_self st rest)
    rw [coordsWithBatch, List.map_append, List.toFinset_append]
    have h1 : (st.C.map (fun cc => (cc, i))).map (fun r : β × ℕ => r.2) =
        List.replicate st.C.length i := by
      rw [List.map_map]
      exact List.map_const st.C i
    have h2 : (List.replicate st.C.length i).toFinset = {i} :=
      List.toFinset_replicate_of_ne_zero
        (by simpa [List.length_eq_zero] using hst)
    rw [h1, h2, ih (i + 1) (fun u hu => h u (List.mem_cons_of_mem st hu))]
    ext x
    simp only [Finset.mem_union, Finset.mem_singleton, Finset.mem_Ico,
      List.length_cons]
    omega

theorem collateST_batch_column {α β : Type} [DecidableEq β]
    (l : List (SparseTensor α β)) (h : ∀ st ∈ l, st.C ≠ []) :
    ((collateST l).C.map (fun r => r.2)).toFinset = Finset.range l.length := by
  show ((coordsWithBatch l 0).map (fun r => r.2)).toFinset = _
  rw [coordsWithBatch_snd_toFinset l 0 h, Finset.range_eq_Ico]
  norm_num

/-- C6: collating N per-sample feed_dicts concatenates every named field and
appends a batch-index column to the coordinates which (when every sample is
nonempty, as those produced by `generate_random_batch` are) takes exactly the
N values 0, ..., N-1, one per sample. -/
theorem C6_collate_concat (L : List FeedDict)
    (h : ∀ fd ∈ L, fd.pc.C ≠ [] ∧ fd.lidar.C ≠ [] ∧ fd.targets.C ≠ [] ∧
      fd.targets_mapped.C ≠ [] ∧ fd.inverse_map.C ≠ []) :
    ((sparse_collate_fn L).pc.F = (L.map (fun fd => fd.pc.F)).flatten ∧
     (sparse_collate_fn L).lidar.F = (L.map (fun fd => fd.lidar.F)).flatten ∧
     (sparse_collate_fn L).targets.F = (L.map (fun fd => fd.targets.F)).flatten ∧
     (sparse_collate_fn L).targets_mapped.F =
       (L.map (fun fd => fd.targets_mapped.F)).flatten ∧
     (sparse_collate_fn L).inverse_map.F =
       (L.map (fun fd => fd.inverse_map.F)).flatten) ∧
    (((sparse_collate_fn L).pc.C.map (fun r => r.2)).toFinset = Finset.range L.length ∧
     ((sparse_collate_fn L).lidar.C.map (fun r => r.2)).toFinset = Finset.range L.length ∧
     ((sparse_collate_fn L).targets.C.map (fun r => r.2)).toFinset = Finset.range L.length ∧
     ((sparse_collate_fn L).targets_mapped.C.map (fun r => r.2)).toFinset =
       Finset.range L.length ∧
     ((sparse_collate_fn L).inverse_map.C.map (fun r => r.2)).toFinset =
       Finset.range L.length) := by
  constructor
  · refine ⟨?_, ?_, ?_, ?_, ?_⟩
    · show ((L.map (fun fd => fd.pc)).map (fun st => st.F)).flatten = _
      rw [List.map_map]
      rfl
    · show ((L.map (fun fd => fd.lidar)).map (fun st => st.F)).flatten = _
      rw [List.map_map]
      rfl
    · show ((L.map (fun fd => fd.targets)).map (fun st => st.F)).flatten = _
      rw [List.map_map]
      rfl
    · show ((L.map (fun fd => fd.targets_mapped)).map (fun st => st.F)).flatten = _
      rw [List.map_map]
      rfl
    · show ((L.map (fun fd => fd.inverse_map)).map (fun st => st.F)).flatten = _
      rw [List.map_map]
      rfl
  · refine ⟨?_, ?_, ?_, ?_, ?_⟩
    · rw [show (sparse_collate_fn L).pc = collateST (L.map (fun fd => fd.pc)) from rfl,
        collateST_batch_column _ (by
          intro st hst
          rcases List.mem_map.mp hst with ⟨fd, hfd, rfl⟩
          exact (h fd hfd).1), List.length_map]
    · rw [show (sparse_collate_fn L).lidar = collateST (L.map (fun fd => fd.lidar)) from rfl,
        collateST_batch_column _ (by
          intro st hst
          rcases List.mem_map.mp hst with ⟨fd, hfd, rfl⟩
          exact (h fd hfd).2.1), List.length_map]
    · rw [show (sparse_collate_fn L).targets = collateST (L.map (fun fd => fd.targets)) from rfl,
        collateST_batch_column _ (by
          intro st hst
          rcases List.mem_map.mp hst with ⟨fd, hfd, rfl⟩
          exact (h fd hfd).2.2.1), List.length_map]
    · rw [show (sparse_collate_fn L).targets_mapped =
          collateST (L.map (fun fd => fd.targets_mapped)) from rfl,
        collateST_batch_column _ (by
          intro st hst
          rcases List.mem_map.mp hst with ⟨fd, hfd, rfl⟩
          exact (h fd hfd).2.2.2.1), List.length_map]
    · rw [show (sparse_collate_fn L).inverse_map =
          collateST (L.map (fun fd => fd.inverse_map)) from rfl,
        collateST_batch_column _ (by
          intro st hst
          rcases List.mem_map.mp hst with ⟨fd, hfd, rfl⟩
          exact (h fd hfd).2.2.2.2), List.length_map]

def exBatch : List FeedDict := [exFeed, exFeed]

/-- Witness for C6: collating two copies of the concrete sample. -/
theorem C6_collate_concat_witness :
    (∀ fd ∈ exBatch, fd.pc.C ≠ [] ∧ fd.lidar.C ≠ [] ∧ fd.targets.C ≠ [] ∧
      fd.targets_mapped.C ≠ [] ∧ fd.inverse_map.C ≠ []) ∧
    (((sparse_collate_fn exBatch).pc.F = (exBatch.map (fun fd => fd.pc.F)).flatten ∧
      (sparse_collate_fn exBatch).lidar.F = (exBatch.map (fun fd => fd.lidar.F)).flatten ∧
      (sparse_collate_fn exBatch).targets.F = (exBatch.map (fun fd => fd.targets.F)).flatten ∧
      (sparse_collate_fn exBatch).targets_mapped.F =
        (exBatch.map (fun fd => fd.targets_mapped.F)).flatten ∧
      (sparse_collate_fn exBatch).inverse_map.F =
        (exBatch.map (fun fd => fd.inverse_map.F)).flatten) ∧
     (((sparse_collate_fn exBatch).pc.C.map (fun r => r.2)).toFinset =
        Finset.range exBatch.length ∧
      ((sparse_collate_fn exBatch).lidar.C.map (fun r => r.2)).toFinset =
        Finset.range exBatch.length ∧
      ((sparse_collate_fn exBatch).targets.C.map (fun r => r.2)).toFinset =
        Finset.range exBatch.length ∧
      ((sparse_collate_fn exBatch).targets_mapped.C.map (fun r => r.2)).toFinset =
        Finset.range exBatch.length ∧
      ((sparse_collate_fn exBatch).inverse_map.C.map (fun r => r.2)).toFinset =
        Finset.range exBatch.length)) := by
  have hyp : ∀ fd ∈ exBatch, fd.pc.C ≠ [] ∧ fd.lidar.C ≠ [] ∧ fd.targets.C ≠ [] ∧
      fd.targets_mapped.C ≠ [] ∧ fd.inverse_map.C ≠ [] := by
    intro fd hfd
    have hfe : fd = exFeed := by
      rcases List.mem_cons.mp hfd with hh | hh
      · exact hh
      · rcases List.mem_cons.mp hh with hg | hg
        · exact hg
        · simp at hg
    subst hfe
    refine ⟨?_, ?_, ?_, ?_, ?_⟩ <;> simp [exFeed, exOut, exVoxes]
  exact ⟨hyp, C6_collate_concat exBatch hyp⟩
